import Mathlib

/-!
Verification of `plot_growth_contributions.py` (growth-decomposition and
stacked-bar geometry).

The core numeric logic of the source is embedded shallowly:

* `extract_dfs` (exact model, ℚ): a period-indexed table is a list of rows,
  one row per period, each row the list of category values in column order.
  Divisions are exact rational divisions; theorems that depend on a divisor
  put the corresponding nonzero hypothesis in front.
* `extract_dfsF` (float model, `Option ℚ`): the same computation where a
  cell is `some q` for a finite value and `none` for a non-finite value
  (NaN/Inf); dividing by zero yields `none` and every arithmetic operation
  propagates `none`, mirroring quiet IEEE propagation for this pipeline.
* `extract_dfs_impl` (state model): a column-named dataframe model that runs
  the body statement by statement on the working copy `dff`, returning the
  caller's `df` alongside the outputs, to express that `df` is never written.
* `tops_bottoms`: the stacked-bar geometry builder, transcribed row by row.
-/

namespace PlotGrowthContributions

/-- Consecutive pairs of a list: `(l[0], l[1]), (l[1], l[2]), …`.
This models the pairing of each period with its predecessor produced by
`.shift(1)` in the source, after dropping the first period (`iloc[1:]`). -/
def consecPairs {α : Type} : List α → List (α × α)
  | [] => []
  | [_] => []
  | a :: b :: rest => (a, b) :: consecPairs (b :: rest)

/-- Per-category growth intermediate, source line 28:
`(dff[cat] - df[cat].shift(1)) / dff[cat].shift(1)`; `prev` is the shifted
(prior-period) value, `cur` the current value. -/
def pctg_growth (prev cur : ℚ) : ℚ := (cur - prev) / prev

/-- Total growth, source line 26:
`(dff['total'] - dff['total'].shift(1)) / dff['total'].shift(1)` where
`total` is the row sum over the category columns (line 25). -/
def pctg_growth_total (prevRow curRow : List ℚ) : ℚ :=
  (curRow.sum - prevRow.sum) / prevRow.sum

/-- Contribution entry, source line 30:
`pctg_growth_cat * dff[cat].shift(1) / dff['total'].shift(1)`. -/
def contribEntry (totalPrev prev cur : ℚ) : ℚ :=
  pctg_growth prev cur * prev / totalPrev

/-- One row of the contribution table: `contribEntry` applied columnwise. -/
def contribRow (prevRow curRow : List ℚ) : List ℚ :=
  List.zipWith (fun prev cur => contribEntry prevRow.sum prev cur) prevRow curRow

/-- Exact-arithmetic model of `extract_dfs` (source lines 23–36): returns the
total-growth series and the contribution table, one entry per period from the
second period on (`iloc[1:]` drops the first period). -/
def extract_dfs (t : List (List ℚ)) : List ℚ × List (List ℚ) :=
  ((consecPairs t).map fun pc => pctg_growth_total pc.1 pc.2,
   (consecPairs t).map fun pc => contribRow pc.1 pc.2)

theorem consecPairs_length {α : Type} (l : List α) :
    (consecPairs l).length = l.length - 1 := by
  match l with
  | [] => rfl
  | [_] => rfl
  | a :: b :: rest =>
    simp only [consecPairs, List.length_cons]
    rw [consecPairs_length (b :: rest)]
    simp

theorem consecPairs_getD {α : Type} [Inhabited α] (l : List α) (i : ℕ)
    (h : i + 1 < l.length) :
    (consecPairs l).getD i default = (l.getD i default, l.getD (i + 1) default) := by
  match l, i with
  | [], i => simp at h
  | [_], i => simp at h
  | a :: b :: rest, 0 => rfl
  | a :: b :: rest, i + 1 =>
    simp only [consecPairs, List.getD_cons_succ]
    exact consecPairs_getD (b :: rest) i (by simpa using Nat.lt_of_succ_lt_succ h)

theorem consecPairs_mem_left {α : Type} (l : List α) (pc : α × α)
    (h : pc ∈ consecPairs l) : pc.1 ∈ l := by
  match l with
  | [] => simp [consecPairs] at h
  | [_] => simp [consecPairs] at h
  | a :: b :: rest =>
    rw [consecPairs, List.mem_cons] at h
    rcases h with h | h
    · simp [h]
    · exact List.mem_cons_of_mem a (consecPairs_mem_left (b :: rest) pc h)

theorem extract_dfs_growth_length (t : List (List ℚ)) :
    (extract_dfs t).1.length = t.length - 1 := by
  simp [extract_dfs, consecPairs_length]

theorem extract_dfs_contrib_length (t : List (List ℚ)) :
    (extract_dfs t).2.length = t.length - 1 := by
  simp [extract_dfs, consecPairs_length]

theorem extract_dfs_growth_getD (t : List (List ℚ)) (i : ℕ) (h : i + 1 < t.length) :
    (extract_dfs t).1.getD i 0 =
      pctg_growth_total (t.getD i []) (t.getD (i + 1) []) := by
  have hlen : i < (consecPairs t).length := by
    rw [consecPairs_length]; omega
  have : (extract_dfs t).1.getD i 0 =
      pctg_growth_total ((consecPairs t).getD i default).1
        ((consecPairs t).getD i default).2 := by
    simp only [extract_dfs]
    rw [List.getD_eq_getElem _ _ (by simpa using hlen), List.getElem_map,
      List.getD_eq_getElem _ _ hlen]
  rw [this, consecPairs_getD t i h]; rfl

theorem extract_dfs_contrib_getD (t : List (List ℚ)) (i : ℕ) (h : i + 1 < t.length) :
    (extract_dfs t).2.getD i [] =
      contribRow (t.getD i []) (t.getD (i + 1) []) := by
  have hlen : i < (consecPairs t).length := by
    rw [consecPairs_length]; omega
  have : (extract_dfs t).2.getD i [] =
      contribRow ((consecPairs t).getD i default).1
        ((consecPairs t).getD i default).2 := by
    simp only [extract_dfs]
    rw [List.getD_eq_getElem _ _ (by simpa using hlen), List.getElem_map,
      List.getD_eq_getElem _ _ hlen]
  rw [this, consecPairs_getD t i h]; rfl

theorem contribRow_getD (p c : List ℚ) (j : ℕ) (hj : j < p.length)
    (hj' : j < c.length) :
    (contribRow p c).getD j 0 = contribEntry p.sum (p.getD j 0) (c.getD j 0) := by
  have hz : j < (List.zipWith (fun prev cur => contribEntry p.sum prev cur) p c).length := by
    simp [List.length_zipWith]; omega
  rw [contribRow, List.getD_eq_getElem _ _ hz, List.getElem_zipWith,
    List.getD_eq_getElem _ _ hj, List.getD_eq_getElem _ _ hj']

theorem contribRow_sum_aux (p c : List ℚ) (S : ℚ) (hlen : p.length = c.length)
    (hnz : ∀ v ∈ p, v ≠ 0) :
    (List.zipWith (fun prev cur => contribEntry S prev cur) p c).sum =
      (c.sum - p.sum) / S := by
  match p, c with
  | [], [] => simp
  | [], cv :: c' => simp at hlen
  | pv :: p', [] => simp at hlen
  | pv :: p', cv :: c' =>
    have hpv : pv ≠ 0 := hnz pv (by simp)
    have ih := contribRow_sum_aux p' c' S (by simpa using hlen)
      (fun v hv => hnz v (by simp [hv]))
    simp only [List.zipWith_cons_cons, List.sum_cons, ih]
    rw [contribEntry, pctg_growth, div_mul_cancel₀ _ hpv, div_add_div_same]
    ring_nf

theorem contribRow_sum (p c : List ℚ) (hlen : p.length = c.length)
    (hnz : ∀ v ∈ p, v ≠ 0) :
    (contribRow p c).sum = pctg_growth_total p c :=
  contribRow_sum_aux p c p.sum hlen hnz

/-- C1: for every table with at least 2 periods and every output period, when
the prior-period total and every divisor of the per-category growth rate (the
prior-period category values) are nonzero and the two rows are aligned, the
contribution-table row of `extract_dfs` sums exactly (in ℚ) to the growth value
of the same period. -/
theorem extract_dfs_contrib_sum_eq_growth (t : List (List ℚ)) (i : ℕ)
    (h : i + 1 < t.length)
    (hcat : (t.getD i []).length = (t.getD (i + 1) []).length)
    (_htot : (t.getD i []).sum ≠ 0)
    (hnz : ∀ v ∈ t.getD i [], v ≠ 0) :
    ((extract_dfs t).2.getD i []).sum = (extract_dfs t).1.getD i 0 := by
  rw [extract_dfs_contrib_getD t i h, extract_dfs_growth_getD t i h]
  exact contribRow_sum _ _ hcat hnz

/-- Witness for C1 at the spec's concrete scenario, table
`[[10,20],[15,25],[12,30]]`, output period 0 (input period 1). -/
theorem extract_dfs_contrib_sum_eq_growth_witness :
    ((extract_dfs [[10, 20], [15, 25], [12, 30]]).2.getD 0 []).sum =
      (extract_dfs [[10, 20], [15, 25], [12, 30]]).1.getD 0 0 :=
  extract_dfs_contrib_sum_eq_growth [[10, 20], [15, 25], [12, 30]] 0
    (by decide) (by decide) (by norm_num) (by norm_num)

/-- C2 counterexample: in the table `[[1],[2]]` the per-category growth
intermediate of the code is `(2 - 1) / 1 = 1` (dividing by the prior-period
value), and the contribution output is `[[1]]`, whereas the claimed formula
`(table[t][c] - table[t-1][c]) / table[t][c]` gives `(2 - 1) / 2 = 1/2 ≠ 1`. -/
theorem pctg_growth_denominator_counterexample :
    pctg_growth 1 2 = 1 ∧ (extract_dfs [[1], [2]]).2 = [[1]] ∧
      ((2 - 1 : ℚ) / 2 ≠ pctg_growth 1 2) := by
  refine ⟨by norm_num [pctg_growth],
    by norm_num [extract_dfs, consecPairs, contribRow, contribEntry, pctg_growth],
    by norm_num [pctg_growth]⟩

/-- C2 amended: the per-category growth intermediate of `extract_dfs` divides
by the PRIOR period's category value: every contribution entry equals
`((table[t+1][c] - table[t][c]) / table[t][c]) * table[t][c] / total[t]`. -/
theorem extract_dfs_contrib_entry_formula (t : List (List ℚ)) (i j : ℕ)
    (h : i + 1 < t.length) (hj : j < (t.getD i []).length)
    (hj' : j < (t.getD (i + 1) []).length) :
    ((extract_dfs t).2.getD i []).getD j 0 =
      ((t.getD (i + 1) []).getD j 0 - (t.getD i []).getD j 0) /
          (t.getD i []).getD j 0 *
        (t.getD i []).getD j 0 / (t.getD i []).sum := by
  rw [extract_dfs_contrib_getD t i h, contribRow_getD _ _ j hj hj']
  rfl

/-- Witness for the amended C2 at table `[[1],[2]]`, entry (0,0). -/
theorem extract_dfs_contrib_entry_formula_witness :
    ((extract_dfs [[1], [2]]).2.getD 0 []).getD 0 0 = ((2 : ℚ) - 1) / 1 * 1 / 1 := by
  have h := extract_dfs_contrib_entry_formula [[1], [2]] 0 0
    (by decide) (by decide) (by decide)
  rw [h]; norm_num

/-- C5: when the input has `N ≥ 2` periods, both outputs of `extract_dfs`
have exactly `N - 1` periods (the first input period is excluded). -/
theorem extract_dfs_output_lengths (t : List (List ℚ)) (_h : 2 ≤ t.length) :
    (extract_dfs t).1.length = t.length - 1 ∧
      (extract_dfs t).2.length = t.length - 1 :=
  ⟨extract_dfs_growth_length t, extract_dfs_contrib_length t⟩

/-- Witness for C5 at a 3-period table. -/
theorem extract_dfs_output_lengths_witness :
    (extract_dfs [[1], [2], [3]]).1.length = 2 ∧
      (extract_dfs [[1], [2], [3]]).2.length = 2 :=
  extract_dfs_output_lengths [[1], [2], [3]] (by decide)

/-! ### Float model: `some q` is a finite value, `none` a non-finite one.

The source computes in IEEE floating point, where dividing by zero yields
`inf`/`-inf`/NaN and every further operation on a non-finite operand in this
pipeline yields a non-finite result (no divisor is ever non-finite here, since
divisors come straight from the finite input cells). The model collapses all
non-finite values to `none`. -/

/-- Float addition: finite on finite operands, non-finite otherwise. -/
def fadd : Option ℚ → Option ℚ → Option ℚ
  | some a, some b => some (a + b)
  | _, _ => none

/-- Float subtraction: finite on finite operands, non-finite otherwise. -/
def fsub : Option ℚ → Option ℚ → Option ℚ
  | some a, some b => some (a - b)
  | _, _ => none

/-- Float multiplication: finite on finite operands, non-finite otherwise. -/
def fmul : Option ℚ → Option ℚ → Option ℚ
  | some a, some b => some (a * b)
  | _, _ => none

/-- Float division: division by zero is non-finite, as is any operation on a
non-finite operand. -/
def fdiv : Option ℚ → Option ℚ → Option ℚ
  | some a, some b => if b = 0 then none else some (a / b)
  | _, _ => none

/-- Row sum over finite input cells. -/
def fsum (l : List (Option ℚ)) : Option ℚ := l.foldr fadd (some 0)

/-- A finite input row lifted to float cells. -/
def liftRow (r : List ℚ) : List (Option ℚ) := r.map some

/-- Per-category growth intermediate in the float model (source line 28). -/
def pctg_growthF (prev cur : Option ℚ) : Option ℚ := fdiv (fsub cur prev) prev

/-- Contribution entry in the float model (source line 30). -/
def contribEntryF (totalPrev prev cur : Option ℚ) : Option ℚ :=
  fdiv (fmul (pctg_growthF prev cur) prev) totalPrev

/-- One contribution row in the float model. -/
def contribRowF (prevRow curRow : List ℚ) : List (Option ℚ) :=
  List.zipWith
    (fun prev cur => contribEntryF (fsum (liftRow prevRow)) (some prev) (some cur))
    prevRow curRow

/-- Float model of `extract_dfs` (source lines 23–36): same shape as
`extract_dfs`, with quiet propagation of non-finite values. It is a total
function: no input makes it fail. -/
def extract_dfsF (t : List (List ℚ)) :
    List (Option ℚ) × List (List (Option ℚ)) :=
  ((consecPairs t).map fun pc =>
      fdiv (fsub (fsum (liftRow pc.2)) (fsum (liftRow pc.1))) (fsum (liftRow pc.1)),
   (consecPairs t).map fun pc => contribRowF pc.1 pc.2)

theorem fsum_liftRow (r : List ℚ) : fsum (liftRow r) = some r.sum := by
  induction r with
  | nil => rfl
  | cons v rest ih => simp [fsum, liftRow, fadd, List.foldr] at ih ⊢; simp [ih]

theorem extract_dfsF_growth_getD (t : List (List ℚ)) (i : ℕ)
    (h : i + 1 < t.length) :
    (extract_dfsF t).1.getD i none =
      fdiv (fsub (fsum (liftRow (t.getD (i + 1) []))) (fsum (liftRow (t.getD i []))))
        (fsum (liftRow (t.getD i []))) := by
  have hlen : i < (consecPairs t).length := by
    rw [consecPairs_length]; omega
  have : (extract_dfsF t).1.getD i none =
      fdiv
        (fsub (fsum (liftRow ((consecPairs t).getD i default).2))
          (fsum (liftRow ((consecPairs t).getD i default).1)))
        (fsum (liftRow ((consecPairs t).getD i default).1)) := by
    simp only [extract_dfsF]
    rw [List.getD_eq_getElem _ _ (by simpa using hlen), List.getElem_map,
      List.getD_eq_getElem _ _ hlen]
  rw [this, consecPairs_getD t i h]; rfl

theorem extract_dfsF_contrib_getD (t : List (List ℚ)) (i : ℕ)
    (h : i + 1 < t.length) :
    (extract_dfsF t).2.getD i [] =
      contribRowF (t.getD i []) (t.getD (i + 1) []) := by
  have hlen : i < (consecPairs t).length := by
    rw [consecPairs_length]; omega
  have : (extract_dfsF t).2.getD i [] =
      contribRowF ((consecPairs t).getD i default).1
        ((consecPairs t).getD i default).2 := by
    simp only [extract_dfsF]
    rw [List.getD_eq_getElem _ _ (by simpa using hlen), List.getElem_map,
      List.getD_eq_getElem _ _ hlen]
  rw [this, consecPairs_getD t i h]; rfl

/-- C7: zero divisors never make `extract_dfsF` fail; the resulting
non-finite values flow quietly into the outputs: a zero prior-period total
makes the growth entry of that period non-finite, and a zero prior-period
category value makes that category's contribution entry non-finite. -/
theorem extract_dfsF_quiet_propagation (t : List (List ℚ)) (i j : ℕ)
    (h : i + 1 < t.length) :
    ((t.getD i []).sum = 0 → (extract_dfsF t).1.getD i none = none) ∧
      (j < (t.getD i []).length → j < (t.getD (i + 1) []).length →
        (t.getD i []).getD j 0 = 0 →
        ((extract_dfsF t).2.getD i []).getD j none = none) := by
  constructor
  · intro hz
    rw [extract_dfsF_growth_getD t i h]
    simp [fdiv, fsub, fsum_liftRow, ← List.getD_eq_getElem?_getD, hz]
  · intro hj hj' hz
    rw [extract_dfsF_contrib_getD t i h]
    have hlen : j < (contribRowF (t.getD i []) (t.getD (i + 1) [])).length := by
      simp only [contribRowF, List.length_zipWith, lt_min_iff]
      exact ⟨hj, hj'⟩
    rw [List.getD_eq_getElem _ _ hlen]
    simp only [contribRowF, List.getElem_zipWith]
    rw [List.getD_eq_getElem _ _ hj] at hz
    rw [hz]
    simp [contribEntryF, pctg_growthF, fdiv, fsub, fmul]

/-- Witness for C7: in table `[[0,1],[2,3]]` the prior row has a zero cell, so
contribution entry (0,0) is non-finite; in `[[1,-1],[2,3]]` the prior total is
zero, so growth entry 0 is non-finite. -/
theorem extract_dfsF_quiet_propagation_witness :
    (extract_dfsF [[1, -1], [2, 3]]).1.getD 0 none = none ∧
      ((extract_dfsF [[0, 1], [2, 3]]).2.getD 0 []).getD 0 none = none := by
  constructor
  · exact (extract_dfsF_quiet_propagation [[1, -1], [2, 3]] 0 0 (by decide)).1
      (by norm_num)
  · exact (extract_dfsF_quiet_propagation [[0, 1], [2, 3]] 0 0 (by decide)).2
      (by decide) (by decide) (by norm_num)

/-- C6 counterexample: `extract_dfs` raises no shape error. On the 1-period
table `[[1,2]]` it returns the pair of empty outputs, and on the 2-period
0-category table `[[],[]]` it returns a non-finite growth entry and an empty
contribution row — in both cases a value, with no failure path in the code. -/
theorem extract_dfs_no_shape_error_counterexample :
    extract_dfsF [[1, 2]] = ([], []) ∧ extract_dfs [[1, 2]] = ([], []) ∧
      extract_dfsF [[], []] = ([none], [[]]) := by
  refine ⟨rfl, rfl, ?_⟩
  simp [extract_dfsF, consecPairs, contribRowF, fsum, liftRow, fdiv, fsub, fadd]

/-- C6 amended: `extract_dfs` performs no shape validation. With fewer than 2
periods both outputs are empty, and with 0 categories every contribution row
is empty while the growth series keeps `N - 1` (non-finite) entries; no error
is ever raised (the model is a total function). -/
theorem extract_dfs_no_shape_error (t : List (List ℚ)) :
    (t.length < 2 → extract_dfsF t = ([], []) ∧ extract_dfs t = ([], [])) ∧
      ((∀ r ∈ t, r = []) → ∀ row ∈ (extract_dfsF t).2, row = []) := by
  constructor
  · intro hlen
    have hc : consecPairs t = [] := by
      match t, hlen with
      | [], _ => rfl
      | [r], _ => rfl
    exact ⟨by simp [extract_dfsF, hc], by simp [extract_dfs, hc]⟩
  · intro hnil row hrow
    simp only [extract_dfsF, List.mem_map] at hrow
    obtain ⟨pc, hpc, hrow⟩ := hrow
    have h1 : pc.1 = [] := hnil pc.1 (consecPairs_mem_left t pc hpc)
    subst hrow
    simp [contribRowF, h1]

/-- Witness for the amended C6 at a 1-period table and a 0-category table. -/
theorem extract_dfs_no_shape_error_witness :
    (extract_dfsF [[5]] = ([], []) ∧ extract_dfs [[5]] = ([], [])) ∧
      (∀ row ∈ (extract_dfsF [[], [], []]).2, row = []) :=
  ⟨(extract_dfs_no_shape_error [[5]]).1 (by decide),
   (extract_dfs_no_shape_error [[], [], []]).2 (by decide)⟩

/-! ### Stack geometry builder, source lines 62–91. -/

/-- One row of `tops_bottoms` (source lines 74–84): two accumulators `pos`
and `neg`, both starting at 0 at the head of the row; a value `v ≥ 0` is
stacked upward from `pos`, a value `v < 0` downward from `neg`. Returns the
(tops, bottoms) lists for the row. -/
def tops_bottoms_row (pos neg : ℚ) : List ℚ → List ℚ × List ℚ
  | [] => ([], [])
  | v :: rest =>
    if 0 ≤ v then
      ((pos + v) :: (tops_bottoms_row (pos + v) neg rest).1,
        pos :: (tops_bottoms_row (pos + v) neg rest).2)
    else
      (neg :: (tops_bottoms_row pos (neg + v) rest).1,
        (neg + v) :: (tops_bottoms_row pos (neg + v) rest).2)

/-- `tops_bottoms` (source lines 62–91): each row processed independently,
accumulators reset to 0 at every row. -/
def tops_bottoms (t : List (List ℚ)) : List (List ℚ) × List (List ℚ) :=
  (t.map fun r => (tops_bottoms_row 0 0 r).1,
   t.map fun r => (tops_bottoms_row 0 0 r).2)

theorem tops_bottoms_row_cons (pos neg v : ℚ) (rest : List ℚ) :
    tops_bottoms_row pos neg (v :: rest) =
      if 0 ≤ v then
        ((pos + v) :: (tops_bottoms_row (pos + v) neg rest).1,
          pos :: (tops_bottoms_row (pos + v) neg rest).2)
      else
        (neg :: (tops_bottoms_row pos (neg + v) rest).1,
          (neg + v) :: (tops_bottoms_row pos (neg + v) rest).2) := rfl

/-- Sum of the non-negative entries of a row (spec: "sum of all non-negative
values in that row"; 0 when there are none). -/
def sumNonneg (r : List ℚ) : ℚ := (r.filter fun v => decide (0 ≤ v)).sum

/-- Sum of the negative entries of a row (0 when there are none). -/
def sumNeg (r : List ℚ) : ℚ := (r.filter fun v => decide (v < 0)).sum

theorem sumNonneg_cons_of_nonneg (v : ℚ) (r : List ℚ) (h : 0 ≤ v) :
    sumNonneg (v :: r) = v + sumNonneg r := by
  simp [sumNonneg, List.filter_cons, h]

theorem sumNonneg_cons_of_neg (v : ℚ) (r : List ℚ) (h : v < 0) :
    sumNonneg (v :: r) = sumNonneg r := by
  simp [sumNonneg, List.filter_cons, not_le.mpr h]

theorem sumNonneg_nonneg (r : List ℚ) : 0 ≤ sumNonneg r := by
  refine List.sum_nonneg fun x hx => ?_
  have := (List.mem_filter.mp hx).2
  exact of_decide_eq_true this

theorem sumNeg_cons_of_nonneg (v : ℚ) (r : List ℚ) (h : 0 ≤ v) :
    sumNeg (v :: r) = sumNeg r := by
  simp [sumNeg, List.filter_cons, not_lt.mpr h]

theorem sumNeg_cons_of_neg (v : ℚ) (r : List ℚ) (h : v < 0) :
    sumNeg (v :: r) = v + sumNeg r := by
  simp [sumNeg, List.filter_cons, h]

theorem sumNeg_nonpos (r : List ℚ) : sumNeg r ≤ 0 := by
  induction r with
  | nil => simp [sumNeg]
  | cons v rest ih =>
    by_cases h : v < 0
    · rw [sumNeg_cons_of_neg v rest h]; linarith
    · rw [sumNeg_cons_of_nonneg v rest (not_lt.mp h)]; exact ih

theorem tops_bottoms_row_tops_le (r : List ℚ) : ∀ (pos neg : ℚ), neg ≤ pos →
    ∀ x ∈ (tops_bottoms_row pos neg r).1, x ≤ pos + sumNonneg r := by
  induction r with
  | nil => intro pos neg _ x hx; simp [tops_bottoms_row] at hx
  | cons v rest ih =>
    intro pos neg hpn x hx
    rw [tops_bottoms_row_cons] at hx
    by_cases h0 : 0 ≤ v
    · rw [if_pos h0] at hx
      rw [sumNonneg_cons_of_nonneg v rest h0]
      rcases List.mem_cons.mp hx with hx | hx
      · have := sumNonneg_nonneg rest; subst hx; linarith
      · have := ih (pos + v) neg (by linarith) x hx; linarith
    · have hv : v < 0 := not_le.mp h0
      rw [if_neg h0] at hx
      rw [sumNonneg_cons_of_neg v rest hv]
      rcases List.mem_cons.mp hx with hx | hx
      · have := sumNonneg_nonneg rest; subst hx; linarith
      · have := ih pos (neg + v) (by linarith) x hx; linarith

theorem tops_bottoms_row_tops_mem (r : List ℚ) : ∀ (pos neg : ℚ), neg ≤ pos →
    r ≠ [] →
    (pos + sumNonneg r) ∈ (tops_bottoms_row pos neg r).1 ∨
      ((∀ v ∈ r, v < 0) ∧ neg ∈ (tops_bottoms_row pos neg r).1 ∧ sumNonneg r = 0) := by
  induction r with
  | nil => intro pos neg _ hne; exact absurd rfl hne
  | cons v rest ih =>
    intro pos neg hpn _
    by_cases h0 : 0 ≤ v
    · rw [sumNonneg_cons_of_nonneg v rest h0, tops_bottoms_row_cons, if_pos h0]
      by_cases hrest : rest = []
      · subst hrest
        left
        have : pos + (v + sumNonneg []) = pos + v := by
          simp [sumNonneg]
        rw [this]
        exact List.mem_cons_self _ _
      · rcases ih (pos + v) neg (by linarith) hrest with hmem | ⟨_, _, hz⟩
        · left
          have : pos + (v + sumNonneg rest) = pos + v + sumNonneg rest := by ring
          rw [this]
          exact List.mem_cons_of_mem _ hmem
        · left
          rw [hz]
          have : pos + (v + 0) = pos + v := by ring
          rw [this]
          exact List.mem_cons_self _ _
    · have hv : v < 0 := not_le.mp h0
      rw [sumNonneg_cons_of_neg v rest hv, tops_bottoms_row_cons, if_neg h0]
      by_cases hrest : rest = []
      · subst hrest
        right
        refine ⟨?_, List.mem_cons_self _ _, by simp [sumNonneg]⟩
        intro w hw
        have : w = v := by simpa using hw
        rw [this]; exact hv
      · rcases ih pos (neg + v) (by linarith) hrest with hmem | ⟨hall, _, hz⟩
        · left
          exact List.mem_cons_of_mem _ hmem
        · right
          refine ⟨?_, List.mem_cons_self _ _, hz⟩
          intro w hw
          rcases List.mem_cons.mp hw with rfl | hw
          · exact hv
          · exact hall w hw

theorem tops_bottoms_row_bots_ge (r : List ℚ) : ∀ (pos neg : ℚ), neg ≤ pos →
    ∀ x ∈ (tops_bottoms_row pos neg r).2, neg + sumNeg r ≤ x := by
  induction r with
  | nil => intro pos neg _ x hx; simp [tops_bottoms_row] at hx
  | cons v rest ih =>
    intro pos neg hpn x hx
    rw [tops_bottoms_row_cons] at hx
    by_cases h0 : 0 ≤ v
    · rw [if_pos h0] at hx
      rw [sumNeg_cons_of_nonneg v rest h0]
      rcases List.mem_cons.mp hx with hx | hx
      · have := sumNeg_nonpos rest; subst hx; linarith
      · have := ih (pos + v) neg (by linarith) x hx; linarith
    · have hv : v < 0 := not_le.mp h0
      rw [if_neg h0] at hx
      rw [sumNeg_cons_of_neg v rest hv]
      rcases List.mem_cons.mp hx with hx | hx
      · have := sumNeg_nonpos rest; subst hx; linarith
      · have := ih pos (neg + v) (by linarith) x hx; linarith

theorem tops_bottoms_row_bots_mem (r : List ℚ) : ∀ (pos neg : ℚ), neg ≤ pos →
    r ≠ [] →
    (neg + sumNeg r) ∈ (tops_bottoms_row pos neg r).2 ∨
      ((∀ v ∈ r, 0 ≤ v) ∧ pos ∈ (tops_bottoms_row pos neg r).2 ∧ sumNeg r = 0) := by
  induction r with
  | nil => intro pos neg _ hne; exact absurd rfl hne
  | cons v rest ih =>
    intro pos neg hpn _
    by_cases h0 : 0 ≤ v
    · rw [sumNeg_cons_of_nonneg v rest h0, tops_bottoms_row_cons, if_pos h0]
      by_cases hrest : rest = []
      · subst hrest
        right
        refine ⟨?_, List.mem_cons_self _ _, by simp [sumNeg]⟩
        intro w hw
        have : w = v := by simpa using hw
        rw [this]; exact h0
      · rcases ih (pos + v) neg (by linarith) hrest with hmem | ⟨hall, _, hz⟩
        · left
          exact List.mem_cons_of_mem _ hmem
        · right
          refine ⟨?_, List.mem_cons_self _ _, hz⟩
          intro w hw
          rcases List.mem_cons.mp hw with rfl | hw
          · exact h0
          · exact hall w hw
    · have hv : v < 0 := not_le.mp h0
      rw [sumNeg_cons_of_neg v rest hv, tops_bottoms_row_cons, if_neg h0]
      by_cases hrest : rest = []
      · subst hrest
        left
        have : neg + (v + sumNeg []) = neg + v := by simp [sumNeg]
        rw [this]
        exact List.mem_cons_self _ _
      · rcases ih pos (neg + v) (by linarith) hrest with hmem | ⟨_, _, hz⟩
        · left
          have : neg + (v + sumNeg rest) = neg + v + sumNeg rest := by ring
          rw [this]
          exact List.mem_cons_of_mem _ hmem
        · left
          rw [hz]
          have : neg + (v + 0) = neg + v := by ring
          rw [this]
          exact List.mem_cons_self _ _

theorem tops_bottoms_row_maximum (r : List ℚ) (hne : r ≠ []) :
    ((tops_bottoms_row 0 0 r).1).maximum = (sumNonneg r : WithBot ℚ) := by
  rw [List.maximum_eq_coe_iff]
  constructor
  · rcases tops_bottoms_row_tops_mem r 0 0 le_rfl hne with hmem | ⟨_, hmem, hz⟩
    · simpa using hmem
    · rw [hz]; exact hmem
  · intro a ha
    have := tops_bottoms_row_tops_le r 0 0 le_rfl a ha
    simpa using this

theorem tops_bottoms_row_minimum (r : List ℚ) (hne : r ≠ []) :
    ((tops_bottoms_row 0 0 r).2).minimum = (sumNeg r : WithTop ℚ) := by
  rw [List.minimum_eq_coe_iff]
  constructor
  · rcases tops_bottoms_row_bots_mem r 0 0 le_rfl hne with hmem | ⟨_, hmem, hz⟩
    · simpa using hmem
    · rw [hz]; exact hmem
  · intro a ha
    have := tops_bottoms_row_bots_ge r 0 0 le_rfl a ha
    simpa using this

theorem tops_getD (t : List (List ℚ)) (i : ℕ) (hi : i < t.length) :
    (tops_bottoms t).1.getD i [] = (tops_bottoms_row 0 0 (t.getD i [])).1 := by
  simp only [tops_bottoms]
  rw [List.getD_eq_getElem _ _ (by simpa using hi), List.getElem_map,
    List.getD_eq_getElem _ _ hi]

theorem bots_getD (t : List (List ℚ)) (i : ℕ) (hi : i < t.length) :
    (tops_bottoms t).2.getD i [] = (tops_bottoms_row 0 0 (t.getD i [])).2 := by
  simp only [tops_bottoms]
  rw [List.getD_eq_getElem _ _ (by simpa using hi), List.getElem_map,
    List.getD_eq_getElem _ _ hi]

theorem tops_bottoms_row_cell (r : List ℚ) : ∀ (pos neg : ℚ) (j : ℕ),
    j < r.length →
    (tops_bottoms_row pos neg r).2.getD j 0 ≤ (tops_bottoms_row pos neg r).1.getD j 0 ∧
      (tops_bottoms_row pos neg r).1.getD j 0 - (tops_bottoms_row pos neg r).2.getD j 0 =
        |r.getD j 0| := by
  induction r with
  | nil => intro pos neg j hj; simp at hj
  | cons v rest ih =>
    intro pos neg j hj
    rw [tops_bottoms_row_cons]
    by_cases h0 : 0 ≤ v
    · rw [if_pos h0]
      cases j with
      | zero =>
        simp only [List.getD_cons_zero]
        exact ⟨by linarith, by rw [abs_of_nonneg h0]; ring⟩
      | succ j =>
        simp only [List.getD_cons_succ]
        exact ih (pos + v) neg j (by simpa using hj)
    · have hv : v < 0 := not_le.mp h0
      rw [if_neg h0]
      cases j with
      | zero =>
        simp only [List.getD_cons_zero]
        exact ⟨by linarith, by rw [abs_of_neg hv]; ring⟩
      | succ j =>
        simp only [List.getD_cons_succ]
        exact ih pos (neg + v) j (by simpa using hj)

/-- C3: `tops_bottoms` processes each row in column order with accumulators
`pos` and `neg` starting at 0: a value `v ≥ 0` gets `bottom = pos`,
`pos += v`, `top = pos`; a value `v < 0` gets `top = neg`, `neg += v`,
`bottom = neg`; in particular the row `[5, -3, 2]` yields tops `[5, 0, 7]`
and bottoms `[0, -3, 5]`. -/
theorem tops_bottoms_step_and_example :
    (∀ (pos neg v : ℚ) (rest : List ℚ),
        tops_bottoms_row pos neg (v :: rest) =
          if 0 ≤ v then
            ((pos + v) :: (tops_bottoms_row (pos + v) neg rest).1,
              pos :: (tops_bottoms_row (pos + v) neg rest).2)
          else
            (neg :: (tops_bottoms_row pos (neg + v) rest).1,
              (neg + v) :: (tops_bottoms_row pos (neg + v) rest).2)) ∧
      tops_bottoms [[5, -3, 2]] = ([[5, 0, 7]], [[0, -3, 5]]) := by
  refine ⟨fun pos neg v rest => rfl, ?_⟩
  norm_num [tops_bottoms, tops_bottoms_row]

/-- C4: for every nonempty row of the input, the maximum of the corresponding
tops row is the sum of the non-negative values of the input row, and the
minimum of the corresponding bottoms row is the sum of its negative values. -/
theorem tops_bottoms_extrema (t : List (List ℚ)) (i : ℕ) (hi : i < t.length)
    (hne : t.getD i [] ≠ []) :
    ((tops_bottoms t).1.getD i []).maximum = (sumNonneg (t.getD i []) : WithBot ℚ) ∧
      ((tops_bottoms t).2.getD i []).minimum = (sumNeg (t.getD i []) : WithTop ℚ) := by
  rw [tops_getD t i hi, bots_getD t i hi]
  exact ⟨tops_bottoms_row_maximum _ hne, tops_bottoms_row_minimum _ hne⟩

/-- Witness for C4 at the spec's stack-geometry row `[5, -3, 2]`:
max of tops is `7 = 5 + 2`, min of bottoms is `-3`. -/
theorem tops_bottoms_extrema_witness :
    ((tops_bottoms [[5, -3, 2]]).1.getD 0 []).maximum = ((7 : ℚ) : WithBot ℚ) ∧
      ((tops_bottoms [[5, -3, 2]]).2.getD 0 []).minimum = ((-3 : ℚ) : WithTop ℚ) := by
  have h := tops_bottoms_extrema [[5, -3, 2]] 0 (by decide) (by decide)
  have h1 : sumNonneg (([[5, -3, 2]] : List (List ℚ)).getD 0 []) = 7 := by
    norm_num [sumNonneg, List.filter]
  have h2 : sumNeg (([[5, -3, 2]] : List (List ℚ)).getD 0 []) = -3 := by
    norm_num [sumNeg, List.filter]
  rw [h1] at h
  rw [h2] at h
  exact h

/-- C8: a value of exactly 0 takes the non-negative branch and produces a
zero-height segment `top = bottom = pos`, leaving both accumulators for the
rest of the row unchanged. -/
theorem tops_bottoms_zero_value (pos neg : ℚ) (rest : List ℚ) :
    tops_bottoms_row pos neg ((0 : ℚ) :: rest) =
      (pos :: (tops_bottoms_row pos neg rest).1,
        pos :: (tops_bottoms_row pos neg rest).2) := by
  rw [tops_bottoms_row_cons, if_pos le_rfl, add_zero]

/-- C10 (implicit): each cell satisfies `bottom ≤ top` with segment height
`top - bottom = |value|`, and each output row depends only on the
corresponding input row. -/
theorem tops_bottoms_cells_and_row_local (t : List (List ℚ)) (i j : ℕ)
    (hi : i < t.length) (hj : j < (t.getD i []).length) :
    (((tops_bottoms t).2.getD i []).getD j 0 ≤ ((tops_bottoms t).1.getD i []).getD j 0 ∧
        ((tops_bottoms t).1.getD i []).getD j 0 -
            ((tops_bottoms t).2.getD i []).getD j 0 = |(t.getD i []).getD j 0|) ∧
      ∀ (u : List (List ℚ)) (k : ℕ), k < u.length → t.getD i [] = u.getD k [] →
        (tops_bottoms t).1.getD i [] = (tops_bottoms u).1.getD k [] ∧
          (tops_bottoms t).2.getD i [] = (tops_bottoms u).2.getD k [] := by
  constructor
  · rw [tops_getD t i hi, bots_getD t i hi]
    exact tops_bottoms_row_cell (t.getD i []) 0 0 j hj
  · intro u k hk he
    rw [tops_getD t i hi, bots_getD t i hi, tops_getD u k hk, bots_getD u k hk, he]
    exact ⟨rfl, rfl⟩

/-- Witness for C10 at table `[[5, -3, 2]]`, cell (0,1), compared against the
same row placed at index 1 of another table. -/
theorem tops_bottoms_cells_and_row_local_witness :
    (((tops_bottoms [[5, -3, 2]]).2.getD 0 []).getD 1 0 ≤
        ((tops_bottoms [[5, -3, 2]]).1.getD 0 []).getD 1 0 ∧
      ((tops_bottoms [[5, -3, 2]]).1.getD 0 []).getD 1 0 -
          ((tops_bottoms [[5, -3, 2]]).2.getD 0 []).getD 1 0 =
        |(([[5, -3, 2]] : List (List ℚ)).getD 0 []).getD 1 0|) ∧
      ((tops_bottoms [[5, -3, 2]]).1.getD 0 [] =
          (tops_bottoms [[9], [5, -3, 2]]).1.getD 1 [] ∧
        (tops_bottoms [[5, -3, 2]]).2.getD 0 [] =
          (tops_bottoms [[9], [5, -3, 2]]).2.getD 1 []) := by
  have h := tops_bottoms_cells_and_row_local [[5, -3, 2]] 0 1 (by decide) (by decide)
  exact ⟨h.1, h.2 [[9], [5, -3, 2]] 1 (by decide) rfl⟩

/-! ### State model of `extract_dfs` for the frame property.

A dataframe is a list of named columns; a column is a list of cells in the
float model (`none` = NaN). The body of `extract_dfs` is replayed statement
by statement: `dff = df.copy()` makes `dff` an independent value, every later
column assignment targets `dff` only, and the result is returned together
with the caller's `df`, which no statement writes to. -/

/-- A column of cells; `none` models NaN. -/
abbrev Series := List (Option ℚ)

/-- A dataframe: named columns in order. -/
abbrev DataFrame := List (String × Series)

/-- `s.shift(1)`: NaN in the first row, prior value in every later row. -/
def shift1 (s : Series) : Series := none :: s.dropLast

/-- Column lookup by name (empty when absent). -/
def getCol (d : DataFrame) (name : String) : Series :=
  ((d.find? fun c => c.1 == name).map Prod.snd).getD []

/-- Column assignment `d[name] = s`: overwrite in place if present, else
append as a new last column. -/
def setCol (d : DataFrame) (name : String) (s : Series) : DataFrame :=
  if d.any (fun c => c.1 == name) then
    d.map fun c => if c.1 == name then (name, s) else c
  else d ++ [(name, s)]

/-- Elementwise series subtraction. -/
def seriesSub (a b : Series) : Series := List.zipWith fsub a b

/-- Elementwise series multiplication. -/
def seriesMul (a b : Series) : Series := List.zipWith fmul a b

/-- Elementwise series division. -/
def seriesDiv (a b : Series) : Series := List.zipWith fdiv a b

/-- Number of rows of a dataframe. -/
def nRows (d : DataFrame) : ℕ := (d.headD ("", [])).2.length

/-- `d.sum(axis=1)`: row-wise sum over all current columns. -/
def sumAxis1 (d : DataFrame) : Series :=
  d.foldl (fun acc c => List.zipWith fadd acc c.2) (List.replicate (nRows d) (some 0))

/-- State model of `extract_dfs` (source lines 23–36), replayed statement by
statement on the working copy `dff`. Returns the caller's `df` (to state the
frame property) together with the two output dataframes. -/
def extract_dfs_impl (df : DataFrame) : DataFrame × (DataFrame × DataFrame) :=
  let dff := df
  let categories := dff.map Prod.fst
  let dff := setCol dff "total" (sumAxis1 dff)
  let dff := setCol dff "pctg_growth_total"
    (seriesDiv (seriesSub (getCol dff "total") (shift1 (getCol dff "total")))
      (shift1 (getCol dff "total")))
  let dff := categories.foldl
    (fun acc cat => setCol acc ("pctg_growth_" ++ cat)
      (seriesDiv (seriesSub (getCol acc cat) (shift1 (getCol df cat)))
        (shift1 (getCol acc cat)))) dff
  let dff := categories.foldl
    (fun acc cat => setCol acc ("contrib_" ++ cat)
      (seriesDiv (seriesMul (getCol acc ("pctg_growth_" ++ cat))
          (shift1 (getCol acc cat)))
        (shift1 (getCol acc "total")))) dff
  let growth_df : DataFrame := [("total", (getCol dff "pctg_growth_total").tail)]
  let contrib_df : DataFrame :=
    categories.map fun cat => (cat, (getCol dff ("contrib_" ++ cat)).tail)
  (df, (growth_df, contrib_df))

/-- C9: `extract_dfs` does not mutate the caller's input table: every write of
the body targets the working copy `dff`, and the input dataframe returned by
the state model is, column for column and cell for cell, the one passed in. -/
theorem extract_dfs_no_input_mutation (df : DataFrame) :
    (extract_dfs_impl df).1 = df := rfl

end PlotGrowthContributions
